import Mathlib

/-!
Shallow embedding of the pagination/reflow engine of the CV renderer: the
`Page` component (the per-page engine) and the page orchestrator that
re-renders a new `Page` for every `throwPageOverFlow` signal.

Rows are opaque values of a type `α`.  The measurement oracle is modelled by
two functions: `mRow : α → Nat` gives the rendered height of a row unit and
`mTitle : String → Nat` gives the rendered height of a section-title unit
(DOM `scrollHeight` values, which are non-negative integers).  The page
container's `clientHeight` equals `allMarginBorderHeight + capacity`, so
`capacity` is the usable content height of a page; the source compares the
running `contentHeight` (initialised to `allMarginBorderHeight`) against
`container.clientHeight`, which is reproduced here exactly.

The source engine is event driven: every mounted unit (a section title or a
row) fires a created-handler exactly once, in document order; each handler
adds the unit's measured height, records it in the `elHeights` ledger,
checks `hasOverFlown`, and either rolls the unit back and throws a
page-overflow signal (ending the page) or speculatively appends the next
unit.  The embedding below replays those events sequentially in mount
order, which is the deterministic order the single-threaded renderer fires
them in.  Sections are modelled as row-list sections rendered with one
created event per row (the shape produced by the orchestrator; the
singleton header/summary sections carry exactly one row, on which the two
renderings agree).  A JS `undefined` row (indexing past the end of a rows
array) crashes the render pass; this is modelled by the `crash` outcome.
-/

namespace CvPagination

/-- Cursor into the document: the `startIndex` / `startSubIndex` pair handed
to a `Page` build, identifying a section index and a row index. -/
structure Cursor where
  secIdx : Nat
  rowIdx : Nat
  deriving Repr, DecidableEq

/-- Document section: title text, whether the markup renders a
`SectionTitle` unit for it (every rendered section type except the header
does), and its ordered rows. -/
structure Sec (α : Type) where
  sectionTitle : String
  hasTitle : Bool
  rows : List α
  deriving Repr, DecidableEq

/-- Page-local clone of a section, restricted to the rows placed on the
page.  `srcIndex` records the index of the source section the clone was
made from (`cloneSection(source[currentIndex])` in the source).  The title
fields travel with the clone exactly as `cloneSection` copies them. -/
structure PageSec (α : Type) where
  srcIndex : Nat
  sectionTitle : String
  hasTitle : Bool
  rows : List α
  deriving Repr, DecidableEq

/-- Entry of the `elHeights` ledger: the top offset and the height of one
placed unit. -/
structure ElHeight where
  top : Nat
  height : Nat
  deriving Repr, DecidableEq

/-- Fixed top/bottom padding plus border accounted before any unit is
placed (`allMarginBorderHeight` in the source). -/
def allMarginBorderHeight : Nat := 66

/-- Mutable state of one page build: the cursor (`currentIndex`,
`currentSubIndex`), the accumulated page-sections, the running
`contentHeight` and the `elHeights` ledger. -/
structure BuildState (α : Type) where
  curIdx : Nat
  curSub : Nat
  pageSections : List (PageSec α)
  contentHeight : Nat
  elHeights : List ElHeight
  deriving Repr, DecidableEq

/-- Finished page: the cursor it started from, its page-sections, its
ledger and its final `contentHeight` (the source never subtracts the
height of a rolled-back unit, so the recorded value includes it). -/
structure Page (α : Type) where
  startCursor : Cursor
  sections : List (PageSec α)
  elHeights : List ElHeight
  contentHeight : Nat
  deriving Repr, DecidableEq

/-- Outcome of one page build: a render-pass crash (a JS `undefined` row
reaching the markup), or a finished page together with the overflow cursor
(`some next` when `throwPageOverFlow` fired, `none` when the document was
exhausted). -/
inductive BuildOutcome (α : Type) where
  | crash : BuildOutcome α
  | done (page : Page α) (next : Option Cursor) : BuildOutcome α
  deriving Repr, DecidableEq

/-- Result of replaying the row events inside one source section: either
the page overflowed (and is finished), or all remaining rows of the
section were committed. -/
inductive RowsResult (α : Type) where
  | overflow (page : Page α) (next : Cursor) : RowsResult α
  | exhausted (st : BuildState α) : RowsResult α
  deriving Repr, DecidableEq

/-- Overflow test of the source: `currentHeight > maxHeight`. -/
def hasOverFlown (maxHeight currentHeight : Nat) : Bool :=
  decide (maxHeight < currentHeight)

/-- Entry appended by `addHeight`: its top is the previous last entry's
top plus height.  The ledger always starts non-empty, so the `none` branch
is unreachable. -/
def nextEntry (l : List ElHeight) (h : Nat) : ElHeight :=
  match l.getLast? with
  | some e => ⟨e.top + e.height, h⟩
  | none => ⟨0, h⟩

/-- The source's `addHeight`: push a new entry whose top is the previous
entry's top plus its height. -/
def addHeight (l : List ElHeight) (h : Nat) : List ElHeight :=
  l ++ [nextEntry l h]

/-- The source's `removeLastAddedSubSection`: when the cursor's sub-index
is `0` the whole last page-section is popped, otherwise only the last row
of the last page-section is popped. -/
def removeLastAddedSubSection (curSub : Nat) (ps : List (PageSec α)) :
    List (PageSec α) :=
  if curSub = 0 then ps.dropLast
  else
    match ps.getLast? with
    | some lastSec => ps.dropLast ++ [{ lastSec with rows := lastSec.rows.dropLast }]
    | none => ps

/-- Append a freshly taken row to the last page-section (the in-section
branch of `addOneMoreSubSection`). -/
def appendRowToLast (ps : List (PageSec α)) (r : α) : List (PageSec α) :=
  match ps.getLast? with
  | some lastSec => ps.dropLast ++ [{ lastSec with rows := lastSec.rows ++ [r] }]
  | none => ps

/-- Replay of `titleCreatedHandler` for a section whose `SectionTitle`
unit just mounted: add the title height, record it, and on overflow roll
back via `removeLastAddedSubSection` and throw the current cursor.
Returns the updated state or the finished page with its overflow cursor.
For a section without a rendered title the state is unchanged. -/
def processTitle (mTitle : String → Nat) (maxH : Nat) (sc : Cursor)
    (hasT : Bool) (title : String) (st : BuildState α) :
    Sum (BuildState α) (Page α × Cursor) :=
  if hasT then
    let th := mTitle title
    let ch := st.contentHeight + th
    let led := addHeight st.elHeights th
    if hasOverFlown maxH ch then
      Sum.inr (⟨sc, removeLastAddedSubSection st.curSub st.pageSections, led, ch⟩,
        ⟨st.curIdx, st.curSub⟩)
    else
      Sum.inl { st with contentHeight := ch, elHeights := led }
  else
    Sum.inl st

/-- Replay of the chain of `sectionCreatedHandler` events for the rows of
the current source section: `r` is the row at (`curIdx`, `curSub`), already
speculatively present as the last row of the last page-section, whose
created event fires now; `rest` is the source rows after it.  On overflow
the single speculative placement is removed and the cursor (which was not
advanced for it) is thrown; otherwise the next row is appended
(`addOneMoreSubSection`, in-section branch) and its event fires in turn. -/
def buildRows (mRow : α → Nat) (maxH : Nat) (sc : Cursor) :
    α → List α → BuildState α → RowsResult α
  | r, rest, st =>
    let h := mRow r
    let ch := st.contentHeight + h
    let led := addHeight st.elHeights h
    if hasOverFlown maxH ch then
      .overflow ⟨sc, removeLastAddedSubSection st.curSub st.pageSections, led, ch⟩
        ⟨st.curIdx, st.curSub⟩
    else
      match rest with
      | [] => .exhausted ⟨st.curIdx, st.curSub, st.pageSections, ch, led⟩
      | rNext :: restNext =>
        buildRows mRow maxH sc rNext restNext
          ⟨st.curIdx, st.curSub + 1, appendRowToLast st.pageSections rNext, ch, led⟩

/-- Replay of the section-crossing branch of `addOneMoreSubSection`: the
current section's rows are exhausted, so move the cursor to the next
section (`currentIndex++`, `currentSubIndex = 0`), clone it restricted to
its first row, replay its title event and then its row events; repeat
until overflow or the end of the document.  A next section with zero rows
puts a JS `undefined` row into the markup and crashes the render pass. -/
def buildSecs (mRow : α → Nat) (mTitle : String → Nat) (maxH : Nat) (sc : Cursor) :
    List (Sec α) → BuildState α → BuildOutcome α
  | [], st => .done ⟨sc, st.pageSections, st.elHeights, st.contentHeight⟩ none
  | sec :: secs, st =>
    match sec.rows with
    | [] => .crash
    | r0 :: rrest =>
      let st1 : BuildState α :=
        ⟨st.curIdx + 1, 0,
          st.pageSections ++ [⟨st.curIdx + 1, sec.sectionTitle, sec.hasTitle, [r0]⟩],
          st.contentHeight, st.elHeights⟩
      match processTitle mTitle maxH sc sec.hasTitle sec.sectionTitle st1 with
      | Sum.inr pn => .done pn.1 (some pn.2)
      | Sum.inl st2 =>
        match buildRows mRow maxH sc r0 rrest st2 with
        | .overflow page next => .done page (some next)
        | .exhausted st3 => buildSecs mRow mTitle maxH sc secs st3

/-- One `Page` build: `constructFirstSection` clones the section at the
start cursor restricted to the single row at `startSubIndex` (out of range
indices crash, as `cloneSection(undefined)` / an `undefined` row would),
the state is initialised with `contentHeight = allMarginBorderHeight` and
ledger `[{top := 0, height := 32}]`, then the initial section's title and
row events fire followed by the rest of the document.  The container's
`clientHeight` is `allMarginBorderHeight + capacity`. -/
def buildPage (mRow : α → Nat) (mTitle : String → Nat)
    (sections : List (Sec α)) (cur : Cursor) (capacity : Nat) : BuildOutcome α :=
  match sections.get? cur.secIdx with
  | none => .crash
  | some sec0 =>
    match sec0.rows.get? cur.rowIdx with
    | none => .crash
    | some r0 =>
      let maxH := allMarginBorderHeight + capacity
      let st0 : BuildState α :=
        ⟨cur.secIdx, cur.rowIdx,
          [⟨cur.secIdx, sec0.sectionTitle, sec0.hasTitle, [r0]⟩],
          allMarginBorderHeight, [⟨0, 32⟩]⟩
      match processTitle mTitle maxH cur sec0.hasTitle sec0.sectionTitle st0 with
      | Sum.inr pn => .done pn.1 (some pn.2)
      | Sum.inl st1 =>
        match buildRows mRow maxH cur r0 (sec0.rows.drop (cur.rowIdx + 1)) st1 with
        | .overflow page next => .done page (some next)
        | .exhausted st2 =>
          buildSecs mRow mTitle maxH cur (sections.drop (cur.secIdx + 1)) st2

/-- Outcome of the orchestrator loop: the finished page list, a crashed
pass (with the pages completed before the crash), or fuel exhaustion —
which models a pass whose cursor stops advancing and therefore keeps
spawning pages forever. -/
inductive PagOutcome (α : Type) where
  | ok (pages : List (Page α)) : PagOutcome α
  | crashed (pagesSoFar : List (Page α)) : PagOutcome α
  | outOfFuel (pagesSoFar : List (Page α)) : PagOutcome α
  deriving Repr, DecidableEq

/-- True exactly for the fuel-exhaustion outcome. -/
def PagOutcome.diverged : PagOutcome α → Bool
  | .outOfFuel _ => true
  | _ => false

/-- The orchestrator: each `throwPageOverFlow(atIndex, atSubIndex)` pushes
a new page starting at exactly that cursor; the loop ends when a page
build finishes without throwing.  `fuel` bounds the number of page builds
so the replay is total; a run that returns `ok` is one the real
orchestrator completes. -/
def paginateAux (mRow : α → Nat) (mTitle : String → Nat)
    (sections : List (Sec α)) (capacity : Nat) :
    Nat → Cursor → PagOutcome α
  | 0, _ => .outOfFuel []
  | fuel + 1, cur =>
    match buildPage mRow mTitle sections cur capacity with
    | .crash => .crashed []
    | .done page none => .ok [page]
    | .done page (some next) =>
      match paginateAux mRow mTitle sections capacity fuel next with
      | .ok ps => .ok (page :: ps)
      | .crashed ps => .crashed (page :: ps)
      | .outOfFuel ps => .outOfFuel (page :: ps)

/-- Full pagination from the initial cursor `(0, 0)` used by the
orchestrator. -/
def paginate (mRow : α → Nat) (mTitle : String → Nat)
    (sections : List (Sec α)) (capacity : Nat) (fuel : Nat) : PagOutcome α :=
  paginateAux mRow mTitle sections capacity fuel ⟨0, 0⟩

/-- Source-section indices whose `SectionTitle` unit the markup renders on
a page: one per page-section with a rendered title. -/
def titledSrcIndices (p : Page α) : List Nat :=
  (p.sections.filter (fun s => s.hasTitle)).map (fun s => s.srcIndex)

/-- Number of times section `i`'s title is rendered across a list of
pages. -/
def titleCountForSection (i : Nat) (pages : List (Page α)) : Nat :=
  (pages.map (fun p => (titledSrcIndices p).count i)).sum

/-! ### Concrete scenario inputs -/

/-- Row measure for the three-section scenario of the spec: row ids 0..3
measure 40, 30, 30, 80. -/
def mRowC6 : Nat → Nat
  | 0 => 40
  | 1 => 30
  | 2 => 30
  | 3 => 80
  | _ => 0

/-- Title measure for the scenario: every rendered title measures 20. -/
def mTitleC6 : String → Nat := fun _ => 20

/-- Scenario document: Header (one row of height 40, no rendered title)
followed by Experience (rendered title of height 20, rows of heights
30, 30, 80). -/
def c6doc : List (Sec Nat) :=
  [⟨"Header", false, [0]⟩, ⟨"Experience", true, [1, 2, 3]⟩]

/-- First page of the scenario run: Header's row and Experience's title
plus first row. -/
def c6page1 : Page Nat :=
  ⟨⟨0, 0⟩, [⟨0, "Header", false, [0]⟩, ⟨1, "Experience", true, [1]⟩],
    [⟨0, 32⟩, ⟨32, 40⟩, ⟨72, 20⟩, ⟨92, 30⟩, ⟨122, 30⟩], 186⟩

/-- Second page of the scenario run: Experience row 2 — together with a
re-rendered Experience title. -/
def c6page2 : Page Nat :=
  ⟨⟨1, 1⟩, [⟨1, "Experience", true, [2]⟩],
    [⟨0, 32⟩, ⟨32, 20⟩, ⟨52, 30⟩, ⟨82, 80⟩], 196⟩

/-- Third page of the scenario run: Experience row 3 — together with a
re-rendered Experience title. -/
def c6page3 : Page Nat :=
  ⟨⟨1, 2⟩, [⟨1, "Experience", true, [3]⟩],
    [⟨0, 32⟩, ⟨32, 20⟩, ⟨52, 80⟩], 166⟩

/-- Measure for the oversized-row scenario: every row measures 150. -/
def mRowBig : Nat → Nat := fun _ => 150

/-- Single untitled section with one row (of measured height 150). -/
def bigDoc : List (Sec Nat) := [⟨"Header", false, [0]⟩]

/-- Measure where every row is small (height 10). -/
def mRowTen : Nat → Nat := fun _ => 10

/-- Single untitled section with one small row, used with capacity 0. -/
def tinyDoc : List (Sec Nat) := [⟨"Header", false, [0]⟩]

/-- The empty page spawned forever by the zero-capacity run. -/
def zeroCapPage : Page Nat := ⟨⟨0, 0⟩, [], [⟨0, 32⟩, ⟨32, 10⟩], 76⟩

/-- Document whose second section has zero rows (malformed per the spec's
caller contract). -/
def zeroRowsDoc : List (Sec Nat) :=
  [⟨"Header", false, [0]⟩, ⟨"Skills", true, []⟩]

/-- Row measure syntactically different from `mRowC6` but pointwise
equal. -/
def mRowC6alt : Nat → Nat := fun n => 0 + mRowC6 n

/-- Title measure syntactically different from `mTitleC6` but pointwise
equal. -/
def mTitleC6alt : String → Nat := fun s => mTitleC6 s + 0

/-! ### Bookkeeping definitions for the correctness proofs -/

/-- Rows of a list of page-sections, each tagged with its page-section's
source-section index, in render order. -/
def taggedRows : List (PageSec α) → List (Nat × α)
  | [] => []
  | s :: rest => s.rows.map (fun r => (s.srcIndex, r)) ++ taggedRows rest

/-- Rows of a list of source sections tagged with their indices, the
first section getting tag `k`. -/
def tagSections : List (Sec α) → Nat → List (Nat × α)
  | [], _ => []
  | s :: rest, k => s.rows.map (fun r => (k, r)) ++ tagSections rest (k + 1)

/-- Tagged rows of the document from a cursor (inclusive) to its end. -/
def remainingTagged (sections : List (Sec α)) (c : Cursor) : List (Nat × α) :=
  (match sections.get? c.secIdx with
   | some s => (s.rows.drop c.rowIdx).map (fun r => (c.secIdx, r))
   | none => []) ++ tagSections (sections.drop (c.secIdx + 1)) (c.secIdx + 1)

/-- Tagged rows of a list of pages, in page order. -/
def pagesTagged : List (Page α) → List (Nat × α)
  | [] => []
  | p :: rest => taggedRows p.sections ++ pagesTagged rest

/-- Rows belonging to source section `i` among a page's page-sections, in
order. -/
def secRowsOnPage (i : Nat) : List (PageSec α) → List α
  | [] => []
  | s :: rest => (if s.srcIndex = i then s.rows else []) ++ secRowsOnPage i rest

/-- Concatenation, across a page list in order, of the rows of section
`i`'s page-sections. -/
def rowsForSection (i : Nat) : List (Page α) → List α
  | [] => []
  | p :: rest => secRowsOnPage i p.sections ++ rowsForSection i rest

/-- Build-loop invariant: the last page-section ends with the row whose
created event fires next, its clone was made from the cursor's section,
and when the cursor's sub-index is `0` that row is the page-section's only
row. -/
def LastRowInv (st : BuildState α) (r : α) : Prop :=
  ∃ front lastSec q, st.pageSections = front ++ [lastSec] ∧
    lastSec.rows = q ++ [r] ∧ lastSec.srcIndex = st.curIdx ∧
    (st.curSub = 0 → q = [])

/-- Cursor coherence: the cursor points at row `r` of its section and
`rest` is exactly the rows after it. -/
def CursorRows (sections : List (Sec α)) (st : BuildState α) (r : α)
    (rest : List α) : Prop :=
  ∃ sec, sections.get? st.curIdx = some sec ∧ sec.rows.drop st.curSub = r :: rest

/-- Chained ledger: every entry after the first starts where the previous
entry ends. -/
def ledgerChained : List ElHeight → Bool
  | [] => true
  | [_] => true
  | a :: b :: rest => (b.top == a.top + a.height) && ledgerChained (b :: rest)

/-- Ledger invariant of a page build: the ledger starts with the seed
entry `{top := 0, height := 32}` and is contiguous. -/
def LedgerOk (l : List ElHeight) : Prop :=
  l.head? = some ⟨0, 32⟩ ∧ ledgerChained l = true

/-- Clone fidelity: every page-section carries exactly the title data of
the source section its `srcIndex` points at. -/
def SecsFid (sections : List (Sec α)) (ps : List (PageSec α)) : Prop :=
  ∀ s ∈ ps, ∃ sec, sections.get? s.srcIndex = some sec ∧
    s.sectionTitle = sec.sectionTitle ∧ s.hasTitle = sec.hasTitle

/-! ### Claim C5: commit/rollback of an attempted placement -/

/-- Unfolding lemma for one row-event step of `buildRows`, phrased on the
commit condition `contentHeight + candidate ≤ maxHeight` (the negation of
`hasOverFlown`). -/
theorem buildRows_step (mRow : α → Nat) (maxH : Nat) (sc : Cursor)
    (r : α) (rest : List α) (st : BuildState α) :
    buildRows mRow maxH sc r rest st =
      if st.contentHeight + mRow r ≤ maxH then
        match rest with
        | [] => .exhausted ⟨st.curIdx, st.curSub, st.pageSections,
            st.contentHeight + mRow r, addHeight st.elHeights (mRow r)⟩
        | rNext :: restNext =>
          buildRows mRow maxH sc rNext restNext
            ⟨st.curIdx, st.curSub + 1, appendRowToLast st.pageSections rNext,
              st.contentHeight + mRow r, addHeight st.elHeights (mRow r)⟩
      else
        .overflow ⟨sc, removeLastAddedSubSection st.curSub st.pageSections,
            addHeight st.elHeights (mRow r), st.contentHeight + mRow r⟩
          ⟨st.curIdx, st.curSub⟩ := by
  rw [buildRows.eq_def]
  simp only [hasOverFlown]
  by_cases h : st.contentHeight + mRow r ≤ maxH
  · rw [if_neg (by simp [Nat.not_lt.mpr h]), if_pos h]
  · rw [if_pos (by simp [Nat.lt_of_not_le h]), if_neg h]

/-- C5: an attempted row placement is committed (the build goes on, the
cursor advanced by one row to the next speculative unit) exactly when the
accumulated `contentHeight` including the candidate stays within the
container height; when it exceeds it, that single placement is removed by
`removeLastAddedSubSection` and the not-advanced cursor
`(curIdx, curSub)` of the rolled-back unit is thrown as the next page's
start cursor.  (`maxH` is `allMarginBorderHeight + capacity` and
`st.contentHeight` includes `allMarginBorderHeight`, so the comparison is
exactly `content so far + candidate ≤ capacity`.) -/
theorem c5_commit_iff_fits (mRow : α → Nat) (maxH : Nat) (sc : Cursor)
    (r : α) (rest : List α) (st : BuildState α) :
    buildRows mRow maxH sc r rest st =
      if st.contentHeight + mRow r ≤ maxH then
        match rest with
        | [] => .exhausted ⟨st.curIdx, st.curSub, st.pageSections,
            st.contentHeight + mRow r, addHeight st.elHeights (mRow r)⟩
        | rNext :: restNext =>
          buildRows mRow maxH sc rNext restNext
            ⟨st.curIdx, st.curSub + 1, appendRowToLast st.pageSections rNext,
              st.contentHeight + mRow r, addHeight st.elHeights (mRow r)⟩
      else
        .overflow ⟨sc, removeLastAddedSubSection st.curSub st.pageSections,
            addHeight st.elHeights (mRow r), st.contentHeight + mRow r⟩
          ⟨st.curIdx, st.curSub⟩ :=
  buildRows_step mRow maxH sc r rest st

/-! ### List helper lemmas -/

theorem mem_of_getLastSome {l : List β} {a : β} (h : l.getLast? = some a) :
    a ∈ l := by
  obtain ⟨hne, hEq⟩ := List.mem_getLast?_eq_getLast (Option.mem_def.mpr h)
  rw [hEq]
  exact List.getLast_mem hne

theorem get?_of_drop_eq_cons {l : List β} {n : Nat} {x : β} {xs : List β}
    (h : l.drop n = x :: xs) : l.get? n = some x := by
  have h2 : l.get? n = (l.drop n).head? := by
    rw [List.get?_eq_getElem?]
    exact (List.head?_drop l n).symm
  rw [h2, h]
  rfl

theorem drop_succ_of_drop_eq_cons {l : List β} {n : Nat} {x : β} {xs : List β}
    (h : l.drop n = x :: xs) : l.drop (n + 1) = xs := by
  have h2 : (l.drop n).drop 1 = l.drop (n + 1) := by rw [List.drop_drop]
  rw [← h2, h]
  rfl

theorem drop_cons_parts {l : List β} {n : Nat} {x : β} {xs : List β}
    (h : l.drop n = x :: xs) : l.get? n = some x ∧ l.drop (n + 1) = xs :=
  ⟨get?_of_drop_eq_cons h, drop_succ_of_drop_eq_cons h⟩

theorem drop_eq_cons_of_get? :
    ∀ {l : List β} {n : Nat} {x : β}, l.get? n = some x →
    l.drop n = x :: l.drop (n + 1) := by
  intro l
  induction l with
  | nil =>
    intro n x h
    simp at h
  | cons a t ih =>
    intro n x h
    cases n with
    | zero =>
      have hx : a = x := by simpa using h
      subst hx
      rfl
    | succ m =>
      have hm : t.get? m = some x := by simpa using h
      exact ih hm

/-! ### Algebra of tagged rows -/

theorem taggedRows_append (l1 l2 : List (PageSec α)) :
    taggedRows (l1 ++ l2) = taggedRows l1 ++ taggedRows l2 := by
  induction l1 with
  | nil => rfl
  | cons s rest ih => simp [taggedRows, ih]

theorem taggedRows_single (s : PageSec α) :
    taggedRows [s] = s.rows.map (fun r => (s.srcIndex, r)) := by
  simp [taggedRows]

theorem appendRowToLast_decomp (front : List (PageSec α)) (lastSec : PageSec α)
    (r : α) :
    appendRowToLast (front ++ [lastSec]) r =
      front ++ [{ lastSec with rows := lastSec.rows ++ [r] }] := by
  simp [appendRowToLast, List.getLast?_concat]

theorem removeLast_zero (front : List (PageSec α)) (lastSec : PageSec α) :
    removeLastAddedSubSection 0 (front ++ [lastSec]) = front := by
  simp [removeLastAddedSubSection]

theorem removeLast_pos (n : Nat) (hn : n ≠ 0) (front : List (PageSec α))
    (lastSec : PageSec α) :
    removeLastAddedSubSection n (front ++ [lastSec]) =
      front ++ [{ lastSec with rows := lastSec.rows.dropLast }] := by
  simp [removeLastAddedSubSection, hn, List.getLast?_concat]

theorem taggedRows_removeLast (n : Nat) (front : List (PageSec α))
    (lastSec : PageSec α) (q : List α) (r : α)
    (hrows : lastSec.rows = q ++ [r]) (h0 : n = 0 → q = []) :
    taggedRows (removeLastAddedSubSection n (front ++ [lastSec]))
      = taggedRows front ++ q.map (fun x => (lastSec.srcIndex, x)) := by
  by_cases hn : n = 0
  · have hq := h0 hn
    subst hq
    rw [hn, removeLast_zero]
    simp
  · rw [removeLast_pos n hn]
    rw [taggedRows_append, taggedRows_single]
    simp [hrows]

theorem taggedRows_decomp (front : List (PageSec α)) (lastSec : PageSec α)
    (q : List α) (r : α) (hrows : lastSec.rows = q ++ [r]) :
    taggedRows (front ++ [lastSec])
      = taggedRows front ++ q.map (fun x => (lastSec.srcIndex, x))
          ++ [(lastSec.srcIndex, r)] := by
  rw [taggedRows_append, taggedRows_single, hrows]
  simp

theorem remainingTagged_cons {sections : List (Sec α)} {i j : Nat} {sec : Sec α}
    {r : α} {tl : List α}
    (hsec : sections.get? i = some sec) (hdrop : sec.rows.drop j = r :: tl) :
    remainingTagged sections ⟨i, j⟩ = (i, r) :: remainingTagged sections ⟨i, j + 1⟩ := by
  simp only [remainingTagged, hsec]
  rw [hdrop, drop_succ_of_drop_eq_cons hdrop]
  rfl

theorem remainingTagged_section_start {sections : List (Sec α)} {i : Nat}
    {sec : Sec α} {secs : List (Sec α)}
    (hdrop : sections.drop (i + 1) = sec :: secs) :
    remainingTagged sections ⟨i + 1, 0⟩ = tagSections (sec :: secs) (i + 1) := by
  obtain ⟨hget, hdrop2⟩ := drop_cons_parts hdrop
  simp only [remainingTagged, hget, hdrop2, List.drop_zero, tagSections]

/-- Tagged-rows bookkeeping of the overflow rollback: removing the single
speculative placement from the page leaves exactly the previously
committed tagged rows `pre`. -/
theorem overflow_case_tagged (sections : List (Sec α)) (st : BuildState α)
    (r : α) (pre : List (Nat × α))
    (hlast : LastRowInv st r)
    (hpre : taggedRows st.pageSections = pre ++ [(st.curIdx, r)]) :
    taggedRows (removeLastAddedSubSection st.curSub st.pageSections)
        ++ remainingTagged sections ⟨st.curIdx, st.curSub⟩
      = pre ++ remainingTagged sections ⟨st.curIdx, st.curSub⟩ := by
  obtain ⟨front, lastSec, q, hps, hrows, hsrc, h0⟩ := hlast
  rw [hps] at hpre ⊢
  rw [taggedRows_removeLast st.curSub front lastSec q r hrows h0]
  rw [taggedRows_decomp front lastSec q r hrows, hsrc] at hpre
  have hc : taggedRows front ++ List.map (fun x => (st.curIdx, x)) q = pre :=
    List.append_cancel_right hpre
  rw [hsrc, hc]

/-- Master bookkeeping lemma for `buildRows`: on overflow the finished
page's tagged rows glue with the remaining document at the thrown cursor;
on exhaustion the state holds exactly the previous rows plus the whole
row suffix of the current section. -/
theorem buildRows_tagged (mRow : α → Nat) (maxH : Nat) (sc : Cursor)
    (sections : List (Sec α)) :
    ∀ (rest : List α) (r : α) (st : BuildState α) (pre : List (Nat × α)),
    CursorRows sections st r rest →
    LastRowInv st r →
    taggedRows st.pageSections = pre ++ [(st.curIdx, r)] →
    (∀ page next, buildRows mRow maxH sc r rest st = .overflow page next →
        taggedRows page.sections ++ remainingTagged sections next
          = pre ++ remainingTagged sections ⟨st.curIdx, st.curSub⟩) ∧
    (∀ st2, buildRows mRow maxH sc r rest st = .exhausted st2 →
        taggedRows st2.pageSections
            = pre ++ (r :: rest).map (fun x => (st.curIdx, x)) ∧
          st2.curIdx = st.curIdx) := by
  intro rest
  induction rest with
  | nil =>
    intro r st pre hcur hlast hpre
    rw [buildRows_step]
    by_cases hle : st.contentHeight + mRow r ≤ maxH
    · rw [if_pos hle]
      constructor
      · intro page next h
        simp at h
      · intro st2 h
        injection h with h1
        subst h1
        exact ⟨by simpa using hpre, rfl⟩
    · rw [if_neg hle]
      constructor
      · intro page next h
        injection h with h1 h2
        subst h1
        subst h2
        exact overflow_case_tagged sections st r pre hlast hpre
      · intro st2 h
        simp at h
  | cons rN restN ih =>
    intro r st pre hcur hlast hpre
    rw [buildRows_step]
    by_cases hle : st.contentHeight + mRow r ≤ maxH
    · rw [if_pos hle]
      obtain ⟨sec, hget, hdrop⟩ := hcur
      obtain ⟨front, lastSec, q, hps, hrows, hsrc, h0⟩ := hlast
      have hdropN : sec.rows.drop (st.curSub + 1) = rN :: restN :=
        drop_succ_of_drop_eq_cons hdrop
      have hcur2 : CursorRows sections
          ⟨st.curIdx, st.curSub + 1, appendRowToLast st.pageSections rN,
            st.contentHeight + mRow r, addHeight st.elHeights (mRow r)⟩ rN restN :=
        ⟨sec, hget, hdropN⟩
      have hlast2 : LastRowInv
          ⟨st.curIdx, st.curSub + 1, appendRowToLast st.pageSections rN,
            st.contentHeight + mRow r, addHeight st.elHeights (mRow r)⟩ rN := by
        refine ⟨front, { lastSec with rows := lastSec.rows ++ [rN] }, q ++ [r],
          ?_, ?_, hsrc, ?_⟩
        · rw [hps, appendRowToLast_decomp]
        · rw [hrows]
        · intro hz
          exact absurd hz (Nat.succ_ne_zero _)
      have hpre2 : taggedRows (appendRowToLast st.pageSections rN)
          = (pre ++ [(st.curIdx, r)]) ++ [(st.curIdx, rN)] := by
        rw [hps, appendRowToLast_decomp,
          taggedRows_decomp front { lastSec with rows := lastSec.rows ++ [rN] }
            lastSec.rows rN rfl]
        rw [hps, taggedRows_decomp front lastSec q r hrows, hsrc] at hpre
        simp only [hrows, hsrc, List.map_append, List.map_cons, List.map_nil,
          ← List.append_assoc]
        rw [← hpre]
      have IH := ih rN
        ⟨st.curIdx, st.curSub + 1, appendRowToLast st.pageSections rN,
          st.contentHeight + mRow r, addHeight st.elHeights (mRow r)⟩
        (pre ++ [(st.curIdx, r)]) hcur2 hlast2 hpre2
      constructor
      · intro page next h
        have hg := IH.1 page next h
        rw [hg, remainingTagged_cons hget hdrop]
        simp
      · intro st2 h
        have hg := IH.2 st2 h
        refine ⟨?_, hg.2⟩
        rw [hg.1]
        simp
    · rw [if_neg hle]
      constructor
      · intro page next h
        injection h with h1 h2
        subst h1
        subst h2
        exact overflow_case_tagged sections st r pre hlast hpre
      · intro st2 h
        simp at h

/-- Case analysis of `processTitle`: either it continues with a state that
differs only in `contentHeight` and ledger, or the title overflowed and it
finishes the page by rolling back with the unchanged cursor. -/
theorem processTitle_cases (mTitle : String → Nat) (maxH : Nat) (sc : Cursor)
    (hasT : Bool) (title : String) (st : BuildState α) :
    (∃ st2, processTitle mTitle maxH sc hasT title st = Sum.inl st2 ∧
        st2.curIdx = st.curIdx ∧ st2.curSub = st.curSub ∧
        st2.pageSections = st.pageSections ∧
        (st2.elHeights = st.elHeights ∨
          st2.elHeights = addHeight st.elHeights (mTitle title))) ∨
    (∃ ch, processTitle mTitle maxH sc hasT title st =
        Sum.inr (⟨sc, removeLastAddedSubSection st.curSub st.pageSections,
          addHeight st.elHeights (mTitle title), ch⟩,
          ⟨st.curIdx, st.curSub⟩)) := by
  cases hasT with
  | false => exact Or.inl ⟨st, rfl, rfl, rfl, rfl, Or.inl rfl⟩
  | true =>
    by_cases hov : hasOverFlown maxH (st.contentHeight + mTitle title)
    · refine Or.inr ⟨st.contentHeight + mTitle title, ?_⟩
      simp [processTitle, hov]
    · refine Or.inl ⟨⟨st.curIdx, st.curSub, st.pageSections,
        st.contentHeight + mTitle title, addHeight st.elHeights (mTitle title)⟩,
        ?_, rfl, rfl, rfl, Or.inr rfl⟩
      simp [processTitle, hov]

/-- Unfolding of `tagSections` at a cons. -/
theorem tagSections_cons (sec : Sec α) (secs : List (Sec α)) (k : Nat) :
    tagSections (sec :: secs) k
      = sec.rows.map (fun r => (k, r)) ++ tagSections secs (k + 1) := rfl

/-- Master bookkeeping lemma for `buildSecs`: entering with the committed
rows tagged in `st.pageSections` and `secs` the document suffix after the
cursor's section, the finished page's tagged rows glue with the remaining
document at the thrown cursor (or cover the whole suffix when the
document is exhausted). -/
theorem buildSecs_tagged (mRow : α → Nat) (mTitle : String → Nat) (maxH : Nat)
    (sc : Cursor) (sections : List (Sec α)) :
    ∀ (secs : List (Sec α)) (st : BuildState α),
    sections.drop (st.curIdx + 1) = secs →
    (∀ page, buildSecs mRow mTitle maxH sc secs st = .done page none →
        taggedRows page.sections
          = taggedRows st.pageSections ++ tagSections secs (st.curIdx + 1)) ∧
    (∀ page nxt, buildSecs mRow mTitle maxH sc secs st = .done page (some nxt) →
        taggedRows page.sections ++ remainingTagged sections nxt
          = taggedRows st.pageSections ++ tagSections secs (st.curIdx + 1)) := by
  intro secs
  induction secs with
  | nil =>
    intro st hdrop
    constructor
    · intro page h
      rw [buildSecs] at h
      injection h with h1 h2
      subst h1
      simp [tagSections]
    · intro page nxt h
      rw [buildSecs] at h
      injection h with h1 h2
      simp at h2
  | cons sec secs2 ih =>
    intro st hdrop
    obtain ⟨hget, hdrop2⟩ := drop_cons_parts hdrop
    cases hrows : sec.rows with
    | nil =>
      constructor
      · intro page h
        rw [buildSecs, hrows] at h
        simp at h
      · intro page nxt h
        rw [buildSecs, hrows] at h
        simp at h
    | cons r0 rrest =>
      rcases processTitle_cases mTitle maxH sc sec.hasTitle sec.sectionTitle
          ⟨st.curIdx + 1, 0,
            st.pageSections ++ [⟨st.curIdx + 1, sec.sectionTitle, sec.hasTitle, [r0]⟩],
            st.contentHeight, st.elHeights⟩ with
        hpt | hpt
      · -- title fits (or no title): the row events run
        obtain ⟨st2, hpt, hidxRaw, hsubRaw, hpsRaw, _⟩ := hpt
        have hidx : st2.curIdx = st.curIdx + 1 := hidxRaw
        have hsub : st2.curSub = 0 := hsubRaw
        have hps2 : st2.pageSections = st.pageSections ++
            [⟨st.curIdx + 1, sec.sectionTitle, sec.hasTitle, [r0]⟩] := hpsRaw
        have hcur2 : CursorRows sections st2 r0 rrest := by
          refine ⟨sec, ?_, ?_⟩
          · rw [hidx]
            exact hget
          · rw [hsub]
            simpa using hrows
        have hlast2 : LastRowInv st2 r0 := by
          refine ⟨st.pageSections,
            ⟨st.curIdx + 1, sec.sectionTitle, sec.hasTitle, [r0]⟩, [], ?_, rfl, ?_, ?_⟩
          · rw [hps2]
          · rw [hidx]
          · intro _
            rfl
        have hpre2 : taggedRows st2.pageSections
            = taggedRows st.pageSections ++ [(st2.curIdx, r0)] := by
          rw [hps2, taggedRows_append, taggedRows_single, hidx]
          rfl
        obtain ⟨hov, hex⟩ := buildRows_tagged mRow maxH sc sections rrest r0 st2
          (taggedRows st.pageSections) hcur2 hlast2 hpre2
        constructor
        · intro page h
          rw [buildSecs, hrows] at h
          simp only [hpt] at h
          cases hbr : buildRows mRow maxH sc r0 rrest st2 with
          | overflow pg nx =>
            rw [hbr] at h
            simp at h
          | exhausted st3 =>
            rw [hbr] at h
            obtain ⟨hst3, hidx3⟩ := hex st3 hbr
            have hdrop3 : sections.drop (st3.curIdx + 1) = secs2 := by
              rw [hidx3, hidx]
              exact hdrop2
            have hthis := (ih st3 hdrop3).1 page h
            rw [hthis, hst3, hidx3, hidx, tagSections_cons, hrows]
            simp [List.append_assoc]
        · intro page nxt h
          rw [buildSecs, hrows] at h
          simp only [hpt] at h
          cases hbr : buildRows mRow maxH sc r0 rrest st2 with
          | overflow pg nx =>
            rw [hbr] at h
            injection h with h1 h2
            subst h1
            injection h2 with h2
            subst h2
            have hg := hov pg nx hbr
            rw [hg, hidx, hsub]
            rw [remainingTagged_section_start hdrop]
          | exhausted st3 =>
            rw [hbr] at h
            obtain ⟨hst3, hidx3⟩ := hex st3 hbr
            have hdrop3 : sections.drop (st3.curIdx + 1) = secs2 := by
              rw [hidx3, hidx]
              exact hdrop2
            have hthis := (ih st3 hdrop3).2 page nxt h
            rw [hthis, hst3, hidx3, hidx, tagSections_cons, hrows]
            simp [List.append_assoc]
      · -- the title unit itself overflowed: the new section is popped
        obtain ⟨ch, hpt⟩ := hpt
        constructor
        · intro page h
          rw [buildSecs, hrows] at h
          simp only [hpt] at h
          simp at h
        · intro page nxt h
          rw [buildSecs, hrows] at h
          simp only [hpt] at h
          injection h with h1 h2
          subst h1
          injection h2 with h2
          subst h2
          simp only [removeLast_zero]
          rw [remainingTagged_section_start hdrop]

/-- Tagged rows of rolling back the single initial placement of a page:
nothing committed remains. -/
theorem taggedRows_removeLast_single (j i : Nat) (t : String) (b : Bool) (r : α) :
    taggedRows (removeLastAddedSubSection j [(⟨i, t, b, [r]⟩ : PageSec α)]) = [] := by
  have h := taggedRows_removeLast j [] ⟨i, t, b, [r]⟩ [] r rfl (fun _ => rfl)
  simpa using h

/-- Master bookkeeping lemma for `buildPage`: a finished page's tagged
rows glue with the remaining document at the thrown cursor, and cover the
whole remaining document when the build exhausted it. -/
theorem buildPage_tagged (mRow : α → Nat) (mTitle : String → Nat)
    (sections : List (Sec α)) (cur : Cursor) (capacity : Nat) :
    (∀ page, buildPage mRow mTitle sections cur capacity = .done page none →
        taggedRows page.sections = remainingTagged sections cur) ∧
    (∀ page nxt,
        buildPage mRow mTitle sections cur capacity = .done page (some nxt) →
        taggedRows page.sections ++ remainingTagged sections nxt
          = remainingTagged sections cur) := by
  cases hget : sections.get? cur.secIdx with
  | none =>
    exact ⟨fun page h => by
        simp only [buildPage, hget] at h
        exact BuildOutcome.noConfusion h,
      fun page nxt h => by
        simp only [buildPage, hget] at h
        exact BuildOutcome.noConfusion h⟩
  | some sec0 =>
    cases hr0 : sec0.rows.get? cur.rowIdx with
    | none =>
      exact ⟨fun page h => by
          simp only [buildPage, hget, hr0] at h
          exact BuildOutcome.noConfusion h,
        fun page nxt h => by
          simp only [buildPage, hget, hr0] at h
          exact BuildOutcome.noConfusion h⟩
    | some r0 =>
      have hdropcur : sec0.rows.drop cur.rowIdx
          = r0 :: sec0.rows.drop (cur.rowIdx + 1) := drop_eq_cons_of_get? hr0
      have hcureta : (⟨cur.secIdx, cur.rowIdx⟩ : Cursor) = cur := rfl
      have hremcur : remainingTagged sections cur
          = (sec0.rows.drop cur.rowIdx).map (fun r => (cur.secIdx, r))
              ++ tagSections (sections.drop (cur.secIdx + 1)) (cur.secIdx + 1) := by
        simp only [remainingTagged, hget]
      rcases processTitle_cases mTitle (allMarginBorderHeight + capacity) cur
          sec0.hasTitle sec0.sectionTitle
          ⟨cur.secIdx, cur.rowIdx,
            [⟨cur.secIdx, sec0.sectionTitle, sec0.hasTitle, [r0]⟩],
            allMarginBorderHeight, [⟨0, 32⟩]⟩ with
        hpt | hpt
      · obtain ⟨st1, hpt, hidxRaw, hsubRaw, hpsRaw, _⟩ := hpt
        have hidx : st1.curIdx = cur.secIdx := hidxRaw
        have hsub : st1.curSub = cur.rowIdx := hsubRaw
        have hps1 : st1.pageSections
            = [⟨cur.secIdx, sec0.sectionTitle, sec0.hasTitle, [r0]⟩] := hpsRaw
        have hcur1 : CursorRows sections st1 r0 (sec0.rows.drop (cur.rowIdx + 1)) := by
          refine ⟨sec0, ?_, ?_⟩
          · rw [hidx]
            exact hget
          · rw [hsub]
            exact hdropcur
        have hlast1 : LastRowInv st1 r0 := by
          refine ⟨[], ⟨cur.secIdx, sec0.sectionTitle, sec0.hasTitle, [r0]⟩, [],
            ?_, rfl, ?_, ?_⟩
          · rw [hps1]
            rfl
          · rw [hidx]
          · intro _
            rfl
        have hpre1 : taggedRows st1.pageSections = [] ++ [(st1.curIdx, r0)] := by
          rw [hps1, hidx]
          rfl
        obtain ⟨hov, hex⟩ := buildRows_tagged mRow (allMarginBorderHeight + capacity)
          cur sections (sec0.rows.drop (cur.rowIdx + 1)) r0 st1 [] hcur1 hlast1 hpre1
        constructor
        · intro page h
          simp only [buildPage, hget, hr0, hpt] at h
          cases hbr : buildRows mRow (allMarginBorderHeight + capacity) cur r0
              (sec0.rows.drop (cur.rowIdx + 1)) st1 with
          | overflow pg nx =>
            rw [hbr] at h
            simp at h
          | exhausted st2 =>
            rw [hbr] at h
            obtain ⟨hst2, hidx2⟩ := hex st2 hbr
            have hsecs := (buildSecs_tagged mRow mTitle
              (allMarginBorderHeight + capacity) cur sections
              (sections.drop (cur.secIdx + 1)) st2 (by rw [hidx2, hidx])).1 page h
            rw [hsecs, hst2, hidx2, hidx, hremcur, hdropcur]
            simp
        · intro page nxt h
          simp only [buildPage, hget, hr0, hpt] at h
          cases hbr : buildRows mRow (allMarginBorderHeight + capacity) cur r0
              (sec0.rows.drop (cur.rowIdx + 1)) st1 with
          | overflow pg nx =>
            rw [hbr] at h
            injection h with h1 h2
            subst h1
            injection h2 with h2
            subst h2
            have hg := hov pg nx hbr
            rw [hidx, hsub, hcureta] at hg
            simpa using hg
          | exhausted st2 =>
            rw [hbr] at h
            obtain ⟨hst2, hidx2⟩ := hex st2 hbr
            have hsecs := (buildSecs_tagged mRow mTitle
              (allMarginBorderHeight + capacity) cur sections
              (sections.drop (cur.secIdx + 1)) st2 (by rw [hidx2, hidx])).2 page nxt h
            rw [hsecs, hst2, hidx2, hidx, hremcur, hdropcur]
            simp
      · obtain ⟨ch, hpt⟩ := hpt
        constructor
        · intro page h
          simp only [buildPage, hget, hr0, hpt] at h
          injection h with h1 h2
          exact Option.noConfusion h2
        · intro page nxt h
          simp only [buildPage, hget, hr0, hpt] at h
          injection h with h1 h2
          subst h1
          injection h2 with h2
          subst h2
          simp only [taggedRows_removeLast_single]
          simp

/-- Master bookkeeping lemma for the orchestrator: a finished run's pages
carry, in page order, exactly the tagged rows of the document from the
start cursor on. -/
theorem paginateAux_tagged (mRow : α → Nat) (mTitle : String → Nat)
    (sections : List (Sec α)) (capacity : Nat) :
    ∀ (fuel : Nat) (cur : Cursor) (pages : List (Page α)),
    paginateAux mRow mTitle sections capacity fuel cur = .ok pages →
    pagesTagged pages = remainingTagged sections cur := by
  intro fuel
  induction fuel with
  | zero =>
    intro cur pages h
    simp [paginateAux] at h
  | succ n ih =>
    intro cur pages h
    rw [paginateAux] at h
    cases hb : buildPage mRow mTitle sections cur capacity with
    | crash =>
      rw [hb] at h
      simp at h
    | done page onext =>
      cases onext with
      | none =>
        rw [hb] at h
        have hpg := (buildPage_tagged mRow mTitle sections cur capacity).1 page hb
        have hpages : pages = [page] := by
          simpa using h.symm
        rw [hpages]
        simp [pagesTagged, hpg]
      | some nxt =>
        simp only [hb] at h
        cases hrec : paginateAux mRow mTitle sections capacity n nxt with
        | ok ps =>
          rw [hrec] at h
          have hpages : pages = page :: ps := by
            simpa using h.symm
          have h2 := ih nxt ps hrec
          have h3 := (buildPage_tagged mRow mTitle sections cur capacity).2 page nxt hb
          rw [hpages]
          simp only [pagesTagged, h2, h3]
        | crashed ps =>
          rw [hrec] at h
          simp at h
        | outOfFuel ps =>
          rw [hrec] at h
          simp at h

/-! ### Filtering tagged rows by section index -/

theorem filter_map_tag (l : List α) (k i : Nat) :
    (l.map (fun r => (k, r))).filter (fun q => q.1 == i)
      = if k = i then l.map (fun r => (k, r)) else [] := by
  induction l with
  | nil => simp
  | cons a t ih =>
    by_cases hk : k = i
    · simp [hk, List.filter_cons, ih]
    · simp [hk, List.filter_cons, ih]

theorem filter_tagSections_lt :
    ∀ (ss : List (Sec α)) (k m : Nat), m < k →
    (tagSections ss k).filter (fun q => q.1 == m) = [] := by
  intro ss
  induction ss with
  | nil =>
    intro k m _
    simp [tagSections]
  | cons s t ih =>
    intro k m hm
    have hk : k ≠ m := Nat.ne_of_gt hm
    simp [tagSections, List.filter_append, filter_map_tag, hk,
      ih (k + 1) m (Nat.lt_succ_of_lt hm)]

theorem filter_tagSections :
    ∀ (ss : List (Sec α)) (k i : Nat) (sec : Sec α),
    ss.get? i = some sec →
    (tagSections ss k).filter (fun q => q.1 == k + i)
      = sec.rows.map (fun r => (k + i, r)) := by
  intro ss
  induction ss with
  | nil =>
    intro k i sec h
    simp at h
  | cons s t ih =>
    intro k i sec h
    cases i with
    | zero =>
      have hs : s = sec := by simpa using h
      subst hs
      have htail := filter_tagSections_lt t (k + 1) k (Nat.lt_succ_self k)
      simp [tagSections, List.filter_append, filter_map_tag, htail]
    | succ m =>
      have hm : t.get? m = some sec := by simpa using h
      have htail := ih (k + 1) m sec hm
      have harith : k + 1 + m = k + (m + 1) := by omega
      rw [harith] at htail
      have hk : k ≠ k + (m + 1) := by omega
      simp [tagSections, List.filter_append, filter_map_tag, hk, htail]

theorem secRowsOnPage_eq (i : Nat) (ps : List (PageSec α)) :
    secRowsOnPage i ps
      = ((taggedRows ps).filter (fun q => q.1 == i)).map Prod.snd := by
  induction ps with
  | nil => rfl
  | cons s t ih =>
    simp only [secRowsOnPage, taggedRows, List.filter_append, List.map_append, ih]
    congr 1
    rw [filter_map_tag]
    by_cases hk : s.srcIndex = i
    · subst hk
      simp
    · simp [hk]

theorem rowsForSection_eq (i : Nat) (pages : List (Page α)) :
    rowsForSection i pages
      = ((pagesTagged pages).filter (fun q => q.1 == i)).map Prod.snd := by
  induction pages with
  | nil => rfl
  | cons p t ih =>
    simp [rowsForSection, pagesTagged, List.filter_append, List.map_append, ih,
      secRowsOnPage_eq]

theorem remainingTagged_zero (sections : List (Sec α)) :
    remainingTagged sections ⟨0, 0⟩ = tagSections sections 0 := by
  cases sections with
  | nil => rfl
  | cons s t => simp [remainingTagged, tagSections]

/-! ### Orchestrator step lemmas and the concrete scenario run -/

/-- One orchestrator step whose page build throws an overflow cursor. -/
theorem paginateAux_cons (mRow : α → Nat) (mTitle : String → Nat)
    (sections : List (Sec α)) (capacity fuel : Nat) (cur next : Cursor)
    (page : Page α) (ps : List (Page α))
    (h : buildPage mRow mTitle sections cur capacity = .done page (some next))
    (h2 : paginateAux mRow mTitle sections capacity fuel next = .ok ps) :
    paginateAux mRow mTitle sections capacity (fuel + 1) cur = .ok (page :: ps) := by
  simp only [paginateAux, h, h2]

/-- One orchestrator step whose page build exhausts the document. -/
theorem paginateAux_last (mRow : α → Nat) (mTitle : String → Nat)
    (sections : List (Sec α)) (capacity fuel : Nat) (cur : Cursor) (page : Page α)
    (h : buildPage mRow mTitle sections cur capacity = .done page none) :
    paginateAux mRow mTitle sections capacity (fuel + 1) cur = .ok [page] := by
  simp only [paginateAux, h]

/-- One orchestrator step whose page build crashes. -/
theorem paginateAux_crashStep (mRow : α → Nat) (mTitle : String → Nat)
    (sections : List (Sec α)) (capacity fuel : Nat) (cur : Cursor)
    (h : buildPage mRow mTitle sections cur capacity = .crash) :
    paginateAux mRow mTitle sections capacity (fuel + 1) cur = .crashed [] := by
  simp only [paginateAux, h]

/-- Page 1 of the scenario: build from `(0,0)` throws `(1,1)`. -/
theorem buildPage_c6_p1 :
    buildPage mRowC6 mTitleC6 c6doc ⟨0, 0⟩ 100 = .done c6page1 (some ⟨1, 1⟩) := by
  decide

/-- Page 2 of the scenario: build from `(1,1)` throws `(1,2)`. -/
theorem buildPage_c6_p2 :
    buildPage mRowC6 mTitleC6 c6doc ⟨1, 1⟩ 100 = .done c6page2 (some ⟨1, 2⟩) := by
  decide

/-- Page 3 of the scenario: build from `(1,2)` exhausts the document. -/
theorem buildPage_c6_p3 :
    buildPage mRowC6 mTitleC6 c6doc ⟨1, 2⟩ 100 = .done c6page3 none := by
  decide

/-- Scenario run restarted at `(1, 2)`. -/
theorem paginateAux_c6_tail1 :
    paginateAux mRowC6 mTitleC6 c6doc 100 1 ⟨1, 2⟩ = .ok [c6page3] :=
  paginateAux_last _ _ _ _ 0 _ _ buildPage_c6_p3

/-- Scenario run restarted at `(1, 1)`. -/
theorem paginateAux_c6_tail2 :
    paginateAux mRowC6 mTitleC6 c6doc 100 2 ⟨1, 1⟩ = .ok [c6page2, c6page3] :=
  paginateAux_cons _ _ _ _ 1 _ _ _ _ buildPage_c6_p2 paginateAux_c6_tail1

/-- Scenario run from `(0, 0)` with fuel 3. -/
theorem paginateAux_c6_full3 :
    paginateAux mRowC6 mTitleC6 c6doc 100 3 ⟨0, 0⟩ = .ok [c6page1, c6page2, c6page3] :=
  paginateAux_cons _ _ _ _ 2 _ _ _ _ buildPage_c6_p1 paginateAux_c6_tail2

/-- Full scenario run: three pages exactly. -/
theorem paginate_c6_run :
    paginate mRowC6 mTitleC6 c6doc 100 10 = .ok [c6page1, c6page2, c6page3] := by
  show paginateAux mRowC6 mTitleC6 c6doc 100 10 ⟨0, 0⟩ = _
  exact paginateAux_cons _ _ _ _ 9 _ _ _ _ buildPage_c6_p1
    (paginateAux_cons _ _ _ _ 8 _ _ _ _ buildPage_c6_p2
      (paginateAux_last _ _ _ _ 7 _ _ buildPage_c6_p3))

/-! ### Claim C1: completeness of pagination -/

/-- C1 (amended): for every document, capacity and measure on which the
orchestrator's run finishes (returns its page list), and for every source
section, concatenating the rows of that section's page-sections across
all pages in page order yields exactly that section's original row
sequence — no loss, duplication or reordering. -/
theorem c1_completeness (mRow : α → Nat) (mTitle : String → Nat)
    (sections : List (Sec α)) (capacity fuel : Nat) (pages : List (Page α))
    (i : Nat) (sec : Sec α)
    (hrun : paginate mRow mTitle sections capacity fuel = .ok pages)
    (hsec : sections.get? i = some sec) :
    rowsForSection i pages = sec.rows := by
  have ht := paginateAux_tagged mRow mTitle sections capacity fuel ⟨0, 0⟩ pages hrun
  rw [rowsForSection_eq, ht, remainingTagged_zero]
  have hf := filter_tagSections sections 0 i sec hsec
  rw [Nat.zero_add] at hf
  rw [hf]
  simp

/-- Witness for C1 at the scenario input: the Experience section (index 1)
is split across the three pages and its rows concatenate back to
`[1, 2, 3]`. -/
theorem c1_completeness_witness :
    paginate mRowC6 mTitleC6 c6doc 100 10 = .ok [c6page1, c6page2, c6page3] ∧
      rowsForSection 1 [c6page1, c6page2, c6page3] = [1, 2, 3] :=
  ⟨paginate_c6_run,
    c1_completeness mRowC6 mTitleC6 c6doc 100 10 [c6page1, c6page2, c6page3] 1
      ⟨"Experience", true, [1, 2, 3]⟩ paginate_c6_run (by decide)⟩

/-! ### Claim C2: the first placement can be rolled back -/

/-- C2 (failing input): with capacity 100 and a single row measuring 150,
the very first placement of the page build is rolled back —
`removeLastAddedSubSection` empties the page — and the unchanged start
cursor `(0,0)` is thrown, so the produced page contains no row at all,
contradicting the claimed minimum-occupancy guarantee. -/
theorem c2_first_placement_rolled_back :
    buildPage mRowBig mTitleC6 bigDoc ⟨0, 0⟩ 100 =
      .done ⟨⟨0, 0⟩, [], [⟨0, 32⟩, ⟨32, 150⟩], 216⟩ (some ⟨0, 0⟩) := rfl

/-! ### Claim C3: pagination does not terminate on an oversized row -/

/-- C3 (failing input): with capacity 100 and a single row measuring 150
the thrown cursor equals the start cursor, so the orchestrator spawns the
same empty page forever — for every fuel bound the run is still
unfinished, refuting the claimed termination (the spec expects one page
holding the row alone). -/
theorem c3_no_termination_oversized_row :
    ∀ fuel, (paginateAux mRowBig mTitleC6 bigDoc 100 fuel ⟨0, 0⟩).diverged = true := by
  intro fuel
  induction fuel with
  | zero => rfl
  | succ n ih =>
    rw [paginateAux]
    have hb : buildPage mRowBig mTitleC6 bigDoc ⟨0, 0⟩ 100 =
        .done ⟨⟨0, 0⟩, [], [⟨0, 32⟩, ⟨32, 150⟩], 216⟩ (some ⟨0, 0⟩) := rfl
    rw [hb]
    cases h : paginateAux mRowBig mTitleC6 bigDoc 100 n ⟨0, 0⟩ with
    | ok ps => rw [h] at ih; simp [PagOutcome.diverged] at ih
    | crashed ps => rw [h] at ih; simp [PagOutcome.diverged] at ih
    | outOfFuel ps => simp [h, PagOutcome.diverged]

/-! ### Claim C6: the three-section scenario -/

/-- C6 (counterexample to the claim as stated): the scenario run does
produce three pages with the claimed row boundaries, but page 2's
page-section for Experience has `hasTitle = true`, i.e. the markup renders
the Experience `SectionTitle` unit again on page 2 (its height 20 is the
ledger entry at top 32), refuting the claimed "no title repeated". -/
theorem c6_title_rendered_on_page2 :
    paginate mRowC6 mTitleC6 c6doc 100 10 = .ok [c6page1, c6page2, c6page3] ∧
      titledSrcIndices c6page2 = [1] :=
  ⟨paginate_c6_run, rfl⟩

/-- C6 (amended): with capacity 100, the scenario paginates into exactly
three pages: page 1 holds Header's row (40) plus Experience's title (20)
and row 1 (30) — row 2 is rolled back at 120 > 100; page 2 starts at
Experience row 2 and holds that row alone; page 3 holds row 3 alone — but
the Experience title is rendered again (and its height counted again in
`contentHeight`) on pages 2 and 3, since every page-section clone carries
and renders the title. -/
theorem c6_scenario_three_pages :
    paginate mRowC6 mTitleC6 c6doc 100 10 = .ok [c6page1, c6page2, c6page3] :=
  paginate_c6_run

/-! ### Claim C4: section titles across split pages -/

/-- C4 (counterexample): in the scenario run the Experience section's
first placed row sits on page 1, yet its title is rendered on all three
pages — three times in the whole run — refuting "placed only on the page
holding the first placed row", "counted exactly once per section over the
whole run" and "never duplicated across pages". -/
theorem c4_title_duplicated_across_pages :
    paginate mRowC6 mTitleC6 c6doc 100 10 = .ok [c6page1, c6page2, c6page3] ∧
      titleCountForSection 1 [c6page1, c6page2, c6page3] = 3 ∧
      titleCountForSection 1 [c6page1, c6page2, c6page3] ≠ 1 :=
  ⟨paginate_c6_run, by decide, by decide⟩

/-! ### Claim C8: no fail-fast on malformed input -/

/-- C8 (counterexample): with capacity 0 — malformed per the claim — the
engine does not fail before page construction: it builds an (empty) page,
throws the unchanged cursor and keeps going, spawning the same page at
every fuel bound instead of failing fast. -/
theorem c8_zero_capacity_keeps_paginating :
    paginateAux mRowTen mTitleC6 tinyDoc 0 3 ⟨0, 0⟩ =
      .outOfFuel [zeroCapPage, zeroCapPage, zeroCapPage] := rfl

/-- C8 (amended): the code performs no upfront validation.  A zero
capacity never fails: every page build completes (with an empty page) and
the run continues for every fuel bound.  A section with zero rows crashes
the pass only when that section is reached during page construction (the
`undefined` row hits the markup), not before pagination begins. -/
theorem c8_no_upfront_validation :
    (∀ fuel, (paginateAux mRowTen mTitleC6 tinyDoc 0 fuel ⟨0, 0⟩).diverged = true) ∧
      paginate mRowTen mTitleC6 zeroRowsDoc 100 5 = .crashed [] := by
  refine ⟨?_, paginateAux_crashStep _ _ _ _ 4 _ (by decide)⟩
  intro fuel
  induction fuel with
  | zero => rfl
  | succ n ih =>
    rw [paginateAux]
    have hb : buildPage mRowTen mTitleC6 tinyDoc ⟨0, 0⟩ 0 =
        .done zeroCapPage (some ⟨0, 0⟩) := rfl
    rw [hb]
    cases h : paginateAux mRowTen mTitleC6 tinyDoc 0 n ⟨0, 0⟩ with
    | ok ps => rw [h] at ih; simp [PagOutcome.diverged] at ih
    | crashed ps => rw [h] at ih; simp [PagOutcome.diverged] at ih
    | outOfFuel ps => simp [h, PagOutcome.diverged]

/-! ### Claim C9: determinism of pagination -/

/-- C9: pagination is a pure function of the document, the capacity and
the measure oracle: two runs whose oracles agree pointwise on every row
and title produce identical outcomes — the same pages, hence the same
start cursors and the same row assignment per page. -/
theorem c9_pagination_deterministic (mRow1 mRow2 : α → Nat)
    (mTitle1 mTitle2 : String → Nat) (sections : List (Sec α))
    (capacity fuel : Nat)
    (hr : ∀ r, mRow1 r = mRow2 r) (ht : ∀ t, mTitle1 t = mTitle2 t) :
    paginate mRow1 mTitle1 sections capacity fuel =
      paginate mRow2 mTitle2 sections capacity fuel := by
  have h1 : mRow1 = mRow2 := funext hr
  have h2 : mTitle1 = mTitle2 := funext ht
  rw [h1, h2]

/-- Witness for C9 at a concrete input: two syntactically different but
pointwise-equal oracles give the same scenario run. -/
theorem c9_pagination_deterministic_witness :
    (∀ r, mRowC6 r = mRowC6alt r) ∧
      paginate mRowC6 mTitleC6 c6doc 100 10 =
        paginate mRowC6alt mTitleC6alt c6doc 100 10 :=
  ⟨fun r => (Nat.zero_add (mRowC6 r)).symm,
    c9_pagination_deterministic mRowC6 mRowC6alt mTitleC6 mTitleC6alt c6doc 100 10
      (fun r => (Nat.zero_add (mRowC6 r)).symm)
      (fun t => (Nat.add_zero (mTitleC6 t)).symm)⟩

/-! ### Claim C7: idempotent restart -/

/-- C7: restarting from the `nextCursor` thrown by a page build
reproduces exactly the remaining pages of the full run: if the full run
from cursor `c` yields `page :: rest` and the build at `c` threw `next`,
then the run from `next` yields exactly `rest`. -/
theorem c7_restart_reproduces_suffix (mRow : α → Nat) (mTitle : String → Nat)
    (sections : List (Sec α)) (capacity fuel : Nat) (c : Cursor)
    (page : Page α) (next : Cursor) (rest : List (Page α))
    (h1 : buildPage mRow mTitle sections c capacity = .done page (some next))
    (h2 : paginateAux mRow mTitle sections capacity (fuel + 1) c = .ok (page :: rest)) :
    paginateAux mRow mTitle sections capacity fuel next = .ok rest := by
  simp only [paginateAux, h1] at h2
  cases h : paginateAux mRow mTitle sections capacity fuel next with
  | ok ps =>
    rw [h] at h2
    simp only [PagOutcome.ok.injEq, List.cons.injEq, true_and] at h2
    rw [h2]
  | crashed ps => rw [h] at h2; simp at h2
  | outOfFuel ps => rw [h] at h2; simp at h2

/-- Witness for C7 at the scenario input: the full run from `(0,0)` is
the three scenario pages, page 1's build throws `(1,1)`, and the run
restarted at `(1,1)` is exactly the remaining two pages. -/
theorem c7_restart_reproduces_suffix_witness :
    buildPage mRowC6 mTitleC6 c6doc ⟨0, 0⟩ 100 = .done c6page1 (some ⟨1, 1⟩) ∧
      paginateAux mRowC6 mTitleC6 c6doc 100 3 ⟨0, 0⟩ =
        .ok [c6page1, c6page2, c6page3] ∧
      paginateAux mRowC6 mTitleC6 c6doc 100 2 ⟨1, 1⟩ = .ok [c6page2, c6page3] :=
  ⟨buildPage_c6_p1, paginateAux_c6_full3,
    c7_restart_reproduces_suffix mRowC6 mTitleC6 c6doc 100 2 ⟨0, 0⟩ c6page1 ⟨1, 1⟩
      [c6page2, c6page3] buildPage_c6_p1 paginateAux_c6_full3⟩

/-! ### Counterexample input for the unrestricted completeness claim -/

/-- Single untitled section with two rows, the first oversized. -/
def twoRowDoc : List (Sec Nat) := [⟨"Header", false, [10, 11]⟩]

/-- The empty page spawned forever by the oversized-first-row run on
`twoRowDoc`. -/
def ovPage : Page Nat := ⟨⟨0, 0⟩, [], [⟨0, 32⟩, ⟨32, 150⟩], 216⟩

/-- C1 (counterexample to the claim as stated, for every document and
capacity): on `twoRowDoc` with capacity 100 the oversized first row is
rolled back with the cursor unchanged, so every emitted page is empty at
every fuel bound — the section's two rows never appear on any emitted
page, so no concatenation of emitted rows reproduces `[10, 11]`. -/
theorem c1_rows_lost_on_oversized_row :
    paginateAux mRowBig mTitleC6 twoRowDoc 100 3 ⟨0, 0⟩
        = .outOfFuel [ovPage, ovPage, ovPage] ∧
      rowsForSection 0 [ovPage, ovPage, ovPage] = [] ∧
      ([] : List Nat) ≠ [10, 11] := by
  refine ⟨rfl, rfl, ?_⟩
  decide

/-! ### Ledger contiguity (claim C10) -/

theorem head?_append_single {l : List β} (x : β) (hne : l ≠ []) :
    (l ++ [x]).head? = l.head? := by
  cases l with
  | nil => exact absurd rfl hne
  | cons a t => rfl

theorem ledgerChained_append_last :
    ∀ (l : List ElHeight) (last e : ElHeight),
    ledgerChained l = true → l.getLast? = some last →
    e.top = last.top + last.height →
    ledgerChained (l ++ [e]) = true := by
  intro l
  induction l with
  | nil =>
    intro last e _ hl _
    simp at hl
  | cons a t ih =>
    intro last e hc hl he
    cases t with
    | nil =>
      have hla : a = last := by simpa using hl
      subst hla
      simp [ledgerChained, he]
    | cons b t2 =>
      have hc1 : b.top = a.top + a.height ∧ ledgerChained (b :: t2) = true := by
        simpa [ledgerChained] using hc
      have hl2 : (b :: t2).getLast? = some last := by
        rw [← List.getLast?_cons_cons]
        exact hl
      have hrec := ih last e hc1.2 hl2 he
      simp only [List.cons_append] at hrec ⊢
      simp [ledgerChained, hc1.1]
      simpa [List.cons_append] using hrec

/-- The ledger invariant is preserved by every `addHeight` call. -/
theorem LedgerOk_addHeight (l : List ElHeight) (h : Nat) (hok : LedgerOk l) :
    LedgerOk (addHeight l h) := by
  obtain ⟨hhead, hchain⟩ := hok
  have hne : l ≠ [] := by
    intro hnil
    rw [hnil] at hhead
    simp at hhead
  have hlast : l.getLast? = some (l.getLast hne) :=
    List.getLast?_eq_getLast_of_ne_nil hne
  constructor
  · rw [addHeight, head?_append_single _ hne]
    exact hhead
  · rw [addHeight]
    refine ledgerChained_append_last l (l.getLast hne) _ hchain hlast ?_
    simp [nextEntry, hlast]

/-- Ledger invariant through the row events of one section. -/
theorem buildRows_ledger (mRow : α → Nat) (maxH : Nat) (sc : Cursor) :
    ∀ (rest : List α) (r : α) (st : BuildState α),
    LedgerOk st.elHeights →
    (∀ page next, buildRows mRow maxH sc r rest st = .overflow page next →
        LedgerOk page.elHeights) ∧
    (∀ st2, buildRows mRow maxH sc r rest st = .exhausted st2 →
        LedgerOk st2.elHeights) := by
  intro rest
  induction rest with
  | nil =>
    intro r st hok
    rw [buildRows_step]
    by_cases hle : st.contentHeight + mRow r ≤ maxH
    · rw [if_pos hle]
      refine ⟨fun page next h => RowsResult.noConfusion h, fun st2 h => ?_⟩
      injection h with h1
      subst h1
      exact LedgerOk_addHeight _ _ hok
    · rw [if_neg hle]
      refine ⟨fun page next h => ?_, fun st2 h => RowsResult.noConfusion h⟩
      injection h with h1 h2
      subst h1
      exact LedgerOk_addHeight _ _ hok
  | cons rN restN ih =>
    intro r st hok
    rw [buildRows_step]
    by_cases hle : st.contentHeight + mRow r ≤ maxH
    · rw [if_pos hle]
      exact ih rN
        ⟨st.curIdx, st.curSub + 1, appendRowToLast st.pageSections rN,
          st.contentHeight + mRow r, addHeight st.elHeights (mRow r)⟩
        (LedgerOk_addHeight _ _ hok)
    · rw [if_neg hle]
      refine ⟨fun page next h => ?_, fun st2 h => RowsResult.noConfusion h⟩
      injection h with h1 h2
      subst h1
      exact LedgerOk_addHeight _ _ hok

/-- Ledger invariant through a title event. -/
theorem processTitle_ledger (mTitle : String → Nat) (maxH : Nat) (sc : Cursor)
    (hasT : Bool) (title : String) (st : BuildState α)
    (hok : LedgerOk st.elHeights) :
    (∀ st2, processTitle mTitle maxH sc hasT title st = Sum.inl st2 →
        LedgerOk st2.elHeights) ∧
    (∀ pg c, processTitle mTitle maxH sc hasT title st = Sum.inr (pg, c) →
        LedgerOk pg.elHeights) := by
  rcases processTitle_cases mTitle maxH sc hasT title st with
    ⟨st2a, hpt, _, _, _, hled⟩ | ⟨ch, hpt⟩
  · refine ⟨fun st2 h => ?_, fun pg c h => ?_⟩
    · rw [hpt] at h
      injection h with h1
      subst h1
      rcases hled with hl | hl
      · rw [hl]
        exact hok
      · rw [hl]
        exact LedgerOk_addHeight _ _ hok
    · rw [hpt] at h
      exact Sum.noConfusion h
  · refine ⟨fun st2 h => ?_, fun pg c h => ?_⟩
    · rw [hpt] at h
      exact Sum.noConfusion h
    · rw [hpt] at h
      injection h with h1
      have h2 : (⟨sc, removeLastAddedSubSection st.curSub st.pageSections,
          addHeight st.elHeights (mTitle title), ch⟩ : Page α) = pg :=
        congrArg Prod.fst h1
      rw [← h2]
      exact LedgerOk_addHeight _ _ hok

/-- Ledger invariant through the section-crossing loop. -/
theorem buildSecs_ledger (mRow : α → Nat) (mTitle : String → Nat) (maxH : Nat)
    (sc : Cursor) :
    ∀ (secs : List (Sec α)) (st : BuildState α),
    LedgerOk st.elHeights →
    ∀ page onext, buildSecs mRow mTitle maxH sc secs st = .done page onext →
    LedgerOk page.elHeights := by
  intro secs
  induction secs with
  | nil =>
    intro st hok page onext h
    rw [buildSecs] at h
    injection h with h1 h2
    subst h1
    exact hok
  | cons sec secs2 ih =>
    intro st hok page onext h
    cases hrows : sec.rows with
    | nil =>
      rw [buildSecs, hrows] at h
      exact BuildOutcome.noConfusion h
    | cons r0 rrest =>
      rw [buildSecs, hrows] at h
      cases hpt : processTitle mTitle maxH sc sec.hasTitle sec.sectionTitle
          ⟨st.curIdx + 1, 0,
            st.pageSections ++ [⟨st.curIdx + 1, sec.sectionTitle, sec.hasTitle, [r0]⟩],
            st.contentHeight, st.elHeights⟩ with
      | inl st2 =>
        simp only [hpt] at h
        have hok2 : LedgerOk st2.elHeights :=
          (processTitle_ledger mTitle maxH sc sec.hasTitle sec.sectionTitle
            ⟨st.curIdx + 1, 0,
              st.pageSections ++
                [⟨st.curIdx + 1, sec.sectionTitle, sec.hasTitle, [r0]⟩],
              st.contentHeight, st.elHeights⟩ hok).1 st2 hpt
        cases hbr : buildRows mRow maxH sc r0 rrest st2 with
        | overflow pg nx =>
          simp only [hbr] at h
          injection h with h1 h2
          subst h1
          exact (buildRows_ledger mRow maxH sc rrest r0 st2 hok2).1 pg nx hbr
        | exhausted st3 =>
          simp only [hbr] at h
          exact ih st3 ((buildRows_ledger mRow maxH sc rrest r0 st2 hok2).2 st3 hbr)
            page onext h
      | inr pn =>
        simp only [hpt] at h
        injection h with h1 h2
        subst h1
        exact (processTitle_ledger mTitle maxH sc sec.hasTitle sec.sectionTitle
          ⟨st.curIdx + 1, 0,
            st.pageSections ++
              [⟨st.curIdx + 1, sec.sectionTitle, sec.hasTitle, [r0]⟩],
            st.contentHeight, st.elHeights⟩ hok).2
          pn.1 pn.2 (by rw [hpt])

/-- Ledger invariant of every finished page build. -/
theorem buildPage_ledger (mRow : α → Nat) (mTitle : String → Nat)
    (sections : List (Sec α)) (cur : Cursor) (capacity : Nat) :
    ∀ page onext, buildPage mRow mTitle sections cur capacity = .done page onext →
    LedgerOk page.elHeights := by
  intro page onext h
  cases hget : sections.get? cur.secIdx with
  | none =>
    simp only [buildPage, hget] at h
    exact BuildOutcome.noConfusion h
  | some sec0 =>
    cases hr0 : sec0.rows.get? cur.rowIdx with
    | none =>
      simp only [buildPage, hget, hr0] at h
      exact BuildOutcome.noConfusion h
    | some r0 =>
      simp only [buildPage, hget, hr0] at h
      have hok0 : LedgerOk ([(⟨0, 32⟩ : ElHeight)]) := ⟨rfl, rfl⟩
      cases hpt : processTitle mTitle (allMarginBorderHeight + capacity) cur
          sec0.hasTitle sec0.sectionTitle
          ⟨cur.secIdx, cur.rowIdx,
            [⟨cur.secIdx, sec0.sectionTitle, sec0.hasTitle, [r0]⟩],
            allMarginBorderHeight, [⟨0, 32⟩]⟩ with
      | inl st1 =>
        simp only [hpt] at h
        have hok1 : LedgerOk st1.elHeights :=
          (processTitle_ledger mTitle (allMarginBorderHeight + capacity) cur
            sec0.hasTitle sec0.sectionTitle
            ⟨cur.secIdx, cur.rowIdx,
              [⟨cur.secIdx, sec0.sectionTitle, sec0.hasTitle, [r0]⟩],
              allMarginBorderHeight, [⟨0, 32⟩]⟩ hok0).1 st1 hpt
        cases hbr : buildRows mRow (allMarginBorderHeight + capacity) cur r0
            (sec0.rows.drop (cur.rowIdx + 1)) st1 with
        | overflow pg nx =>
          simp only [hbr] at h
          injection h with h1 h2
          subst h1
          exact (buildRows_ledger _ _ _ _ _ _ hok1).1 pg nx hbr
        | exhausted st2 =>
          simp only [hbr] at h
          exact buildSecs_ledger mRow mTitle _ cur (sections.drop (cur.secIdx + 1))
            st2 ((buildRows_ledger _ _ _ _ _ _ hok1).2 st2 hbr) page onext h
      | inr pn =>
        simp only [hpt] at h
        injection h with h1 h2
        subst h1
        exact (processTitle_ledger mTitle (allMarginBorderHeight + capacity) cur
          sec0.hasTitle sec0.sectionTitle
          ⟨cur.secIdx, cur.rowIdx,
            [⟨cur.secIdx, sec0.sectionTitle, sec0.hasTitle, [r0]⟩],
            allMarginBorderHeight, [⟨0, 32⟩]⟩ hok0).2 pn.1 pn.2 (by rw [hpt])

/-- Ledger invariant of every page of a finished orchestrator run. -/
theorem paginateAux_ledger (mRow : α → Nat) (mTitle : String → Nat)
    (sections : List (Sec α)) (capacity : Nat) :
    ∀ (fuel : Nat) (cur : Cursor) (pages : List (Page α)),
    paginateAux mRow mTitle sections capacity fuel cur = .ok pages →
    ∀ p ∈ pages, LedgerOk p.elHeights := by
  intro fuel
  induction fuel with
  | zero =>
    intro cur pages h
    simp [paginateAux] at h
  | succ n ih =>
    intro cur pages h
    rw [paginateAux] at h
    cases hb : buildPage mRow mTitle sections cur capacity with
    | crash =>
      rw [hb] at h
      simp at h
    | done page onext =>
      cases onext with
      | none =>
        rw [hb] at h
        have hpages : pages = [page] := by simpa using h.symm
        rw [hpages]
        intro p hp
        have hpp : p = page := by simpa using hp
        rw [hpp]
        exact buildPage_ledger mRow mTitle sections cur capacity page none hb
      | some nxt =>
        simp only [hb] at h
        cases hrec : paginateAux mRow mTitle sections capacity n nxt with
        | ok ps =>
          rw [hrec] at h
          have hpages : pages = page :: ps := by simpa using h.symm
          rw [hpages]
          intro p hp
          rcases List.mem_cons.mp hp with hpp | hpp
          · rw [hpp]
            exact buildPage_ledger mRow mTitle sections cur capacity page
              (some nxt) hb
          · exact ih nxt ps hrec p hpp
        | crashed ps =>
          rw [hrec] at h
          simp at h
        | outOfFuel ps =>
          rw [hrec] at h
          simp at h

/-! ### Claim C10: height-ledger contiguity -/

/-- C10: the ledger invariant — the `elHeights` ledger starts with the
seed entry `{top := 0, height := 32}` and every appended entry's top
equals the previous entry's top plus its height — is preserved by every
`addHeight` call, and holds for the ledger of every page of every
finished run (each page build starts its ledger as exactly
`[{top := 0, height := 32}]`). -/
theorem c10_ledger_contiguous (mRow : α → Nat) (mTitle : String → Nat)
    (sections : List (Sec α)) (capacity fuel : Nat) (pages : List (Page α))
    (p : Page α)
    (hrun : paginate mRow mTitle sections capacity fuel = .ok pages)
    (hp : p ∈ pages) :
    (∀ (l : List ElHeight) (hh : Nat), LedgerOk l → LedgerOk (addHeight l hh)) ∧
      (p.elHeights.head? = some ⟨0, 32⟩ ∧ ledgerChained p.elHeights = true) :=
  ⟨fun l hh hok => LedgerOk_addHeight l hh hok,
    paginateAux_ledger mRow mTitle sections capacity fuel ⟨0, 0⟩ pages hrun p hp⟩

/-- Witness for C10 at the scenario input, on page 2 of the run. -/
theorem c10_ledger_contiguous_witness :
    paginate mRowC6 mTitleC6 c6doc 100 10 = .ok [c6page1, c6page2, c6page3] ∧
      c6page2.elHeights.head? = some ⟨0, 32⟩ ∧
      ledgerChained c6page2.elHeights = true :=
  ⟨paginate_c6_run,
    (c10_ledger_contiguous mRowC6 mTitleC6 c6doc 100 10
      [c6page1, c6page2, c6page3] c6page2 paginate_c6_run (by decide)).2⟩

/-! ### Clone fidelity (claim C4, amended) -/

theorem SecsFid_append {sections : List (Sec α)} {ps1 ps2 : List (PageSec α)}
    (h1 : SecsFid sections ps1) (h2 : SecsFid sections ps2) :
    SecsFid sections (ps1 ++ ps2) := by
  intro s hs
  rcases List.mem_append.mp hs with h | h
  · exact h1 s h
  · exact h2 s h

theorem SecsFid_dropLast {sections : List (Sec α)} {ps : List (PageSec α)}
    (h : SecsFid sections ps) : SecsFid sections ps.dropLast :=
  fun s hs => h s (List.dropLast_subset ps hs)

theorem SecsFid_appendRowToLast {sections : List (Sec α)} {ps : List (PageSec α)}
    (r : α) (h : SecsFid sections ps) :
    SecsFid sections (appendRowToLast ps r) := by
  unfold appendRowToLast
  cases hl : ps.getLast? with
  | none => exact h
  | some lastSec =>
    refine SecsFid_append (SecsFid_dropLast h) ?_
    intro s hs
    have hse : s = { lastSec with rows := lastSec.rows ++ [r] } := by simpa using hs
    subst hse
    obtain ⟨sec, hg, ht, hb⟩ := h lastSec (mem_of_getLastSome hl)
    exact ⟨sec, hg, ht, hb⟩

theorem SecsFid_removeLast {sections : List (Sec α)} {ps : List (PageSec α)}
    (n : Nat) (h : SecsFid sections ps) :
    SecsFid sections (removeLastAddedSubSection n ps) := by
  unfold removeLastAddedSubSection
  by_cases hn : n = 0
  · simp only [hn, if_pos]
    exact SecsFid_dropLast h
  · simp only [hn, if_neg, ite_false]
    cases hl : ps.getLast? with
    | none => exact h
    | some lastSec =>
      refine SecsFid_append (SecsFid_dropLast h) ?_
      intro s hs
      have hse : s = { lastSec with rows := lastSec.rows.dropLast } := by simpa using hs
      subst hse
      obtain ⟨sec, hg, ht, hb⟩ := h lastSec (mem_of_getLastSome hl)
      exact ⟨sec, hg, ht, hb⟩

/-- The row-event loop never changes `curIdx` before exhaustion. -/
theorem buildRows_curIdx (mRow : α → Nat) (maxH : Nat) (sc : Cursor) :
    ∀ (rest : List α) (r : α) (st : BuildState α) (st2 : BuildState α),
    buildRows mRow maxH sc r rest st = .exhausted st2 →
    st2.curIdx = st.curIdx := by
  intro rest
  induction rest with
  | nil =>
    intro r st st2 h
    rw [buildRows_step] at h
    by_cases hle : st.contentHeight + mRow r ≤ maxH
    · rw [if_pos hle] at h
      injection h with h1
      subst h1
      rfl
    · rw [if_neg hle] at h
      exact RowsResult.noConfusion h
  | cons rN restN ih =>
    intro r st st2 h
    rw [buildRows_step] at h
    by_cases hle : st.contentHeight + mRow r ≤ maxH
    · rw [if_pos hle] at h
      exact ih rN
        ⟨st.curIdx, st.curSub + 1, appendRowToLast st.pageSections rN,
          st.contentHeight + mRow r, addHeight st.elHeights (mRow r)⟩ st2 h
    · rw [if_neg hle] at h
      exact RowsResult.noConfusion h

/-- Clone fidelity through the row events of one section. -/
theorem buildRows_fid (mRow : α → Nat) (maxH : Nat) (sc : Cursor)
    (sections : List (Sec α)) :
    ∀ (rest : List α) (r : α) (st : BuildState α),
    SecsFid sections st.pageSections →
    (∀ page next, buildRows mRow maxH sc r rest st = .overflow page next →
        SecsFid sections page.sections) ∧
    (∀ st2, buildRows mRow maxH sc r rest st = .exhausted st2 →
        SecsFid sections st2.pageSections) := by
  intro rest
  induction rest with
  | nil =>
    intro r st hfid
    rw [buildRows_step]
    by_cases hle : st.contentHeight + mRow r ≤ maxH
    · rw [if_pos hle]
      refine ⟨fun page next h => RowsResult.noConfusion h, fun st2 h => ?_⟩
      injection h with h1
      subst h1
      exact hfid
    · rw [if_neg hle]
      refine ⟨fun page next h => ?_, fun st2 h => RowsResult.noConfusion h⟩
      injection h with h1 h2
      subst h1
      exact SecsFid_removeLast st.curSub hfid
  | cons rN restN ih =>
    intro r st hfid
    rw [buildRows_step]
    by_cases hle : st.contentHeight + mRow r ≤ maxH
    · rw [if_pos hle]
      exact ih rN
        ⟨st.curIdx, st.curSub + 1, appendRowToLast st.pageSections rN,
          st.contentHeight + mRow r, addHeight st.elHeights (mRow r)⟩
        (SecsFid_appendRowToLast rN hfid)
    · rw [if_neg hle]
      refine ⟨fun page next h => ?_, fun st2 h => RowsResult.noConfusion h⟩
      injection h with h1 h2
      subst h1
      exact SecsFid_removeLast st.curSub hfid

/-- Clone fidelity through the section-crossing loop. -/
theorem buildSecs_fid (mRow : α → Nat) (mTitle : String → Nat) (maxH : Nat)
    (sc : Cursor) (sections : List (Sec α)) :
    ∀ (secs : List (Sec α)) (st : BuildState α),
    sections.drop (st.curIdx + 1) = secs →
    SecsFid sections st.pageSections →
    ∀ page onext, buildSecs mRow mTitle maxH sc secs st = .done page onext →
    SecsFid sections page.sections := by
  intro secs
  induction secs with
  | nil =>
    intro st _ hfid page onext h
    rw [buildSecs] at h
    injection h with h1 h2
    subst h1
    exact hfid
  | cons sec secs2 ih =>
    intro st hdrop hfid page onext h
    obtain ⟨hget, hdrop2⟩ := drop_cons_parts hdrop
    cases hrows : sec.rows with
    | nil =>
      rw [buildSecs, hrows] at h
      exact BuildOutcome.noConfusion h
    | cons r0 rrest =>
      rw [buildSecs, hrows] at h
      have hfid1 : SecsFid sections (st.pageSections ++
          [⟨st.curIdx + 1, sec.sectionTitle, sec.hasTitle, [r0]⟩]) := by
        refine SecsFid_append hfid ?_
        intro s hs
        have hse : s = (⟨st.curIdx + 1, sec.sectionTitle, sec.hasTitle, [r0]⟩
            : PageSec α) := by simpa using hs
        subst hse
        exact ⟨sec, hget, rfl, rfl⟩
      rcases processTitle_cases mTitle maxH sc sec.hasTitle sec.sectionTitle
          ⟨st.curIdx + 1, 0,
            st.pageSections ++ [⟨st.curIdx + 1, sec.sectionTitle, sec.hasTitle, [r0]⟩],
            st.contentHeight, st.elHeights⟩ with
        hpt | hpt
      · obtain ⟨st2, hpt, hidxRaw, _, hpsRaw, _⟩ := hpt
        have hidx : st2.curIdx = st.curIdx + 1 := hidxRaw
        have hps2 : st2.pageSections = st.pageSections ++
            [⟨st.curIdx + 1, sec.sectionTitle, sec.hasTitle, [r0]⟩] := hpsRaw
        have hfid2 : SecsFid sections st2.pageSections := by
          rw [hps2]
          exact hfid1
        simp only [hpt] at h
        cases hbr : buildRows mRow maxH sc r0 rrest st2 with
        | overflow pg nx =>
          rw [hbr] at h
          injection h with h1 h2
          subst h1
          exact (buildRows_fid mRow maxH sc sections rrest r0 st2 hfid2).1 pg nx hbr
        | exhausted st3 =>
          rw [hbr] at h
          have hfid3 : SecsFid sections st3.pageSections :=
            (buildRows_fid mRow maxH sc sections rrest r0 st2 hfid2).2 st3 hbr
          have hidx3 : st3.curIdx = st2.curIdx :=
            buildRows_curIdx mRow maxH sc rrest r0 st2 st3 hbr
          exact ih st3 (by rw [hidx3, hidx]; exact hdrop2) hfid3 page onext h
      · obtain ⟨ch, hpt⟩ := hpt
        simp only [hpt] at h
        injection h with h1 h2
        subst h1
        exact SecsFid_removeLast 0 hfid1

/-- Clone fidelity of every finished page build. -/
theorem buildPage_fid (mRow : α → Nat) (mTitle : String → Nat)
    (sections : List (Sec α)) (cur : Cursor) (capacity : Nat) :
    ∀ page onext, buildPage mRow mTitle sections cur capacity = .done page onext →
    SecsFid sections page.sections := by
  intro page onext h
  cases hget : sections.get? cur.secIdx with
  | none =>
    simp only [buildPage, hget] at h
    exact BuildOutcome.noConfusion h
  | some sec0 =>
    cases hr0 : sec0.rows.get? cur.rowIdx with
    | none =>
      simp only [buildPage, hget, hr0] at h
      exact BuildOutcome.noConfusion h
    | some r0 =>
      simp only [buildPage, hget, hr0] at h
      have hfid0 : SecsFid sections
          [(⟨cur.secIdx, sec0.sectionTitle, sec0.hasTitle, [r0]⟩ : PageSec α)] := by
        intro s hs
        have hse : s = (⟨cur.secIdx, sec0.sectionTitle, sec0.hasTitle, [r0]⟩
            : PageSec α) := by simpa using hs
        subst hse
        exact ⟨sec0, hget, rfl, rfl⟩
      rcases processTitle_cases mTitle (allMarginBorderHeight + capacity) cur
          sec0.hasTitle sec0.sectionTitle
          ⟨cur.secIdx, cur.rowIdx,
            [⟨cur.secIdx, sec0.sectionTitle, sec0.hasTitle, [r0]⟩],
            allMarginBorderHeight, [⟨0, 32⟩]⟩ with
        hpt | hpt
      · obtain ⟨st1, hpt, hidxRaw, _, hpsRaw, _⟩ := hpt
        have hidx : st1.curIdx = cur.secIdx := hidxRaw
        have hps1 : st1.pageSections
            = [⟨cur.secIdx, sec0.sectionTitle, sec0.hasTitle, [r0]⟩] := hpsRaw
        have hfid1 : SecsFid sections st1.pageSections := by
          rw [hps1]
          exact hfid0
        simp only [hpt] at h
        cases hbr : buildRows mRow (allMarginBorderHeight + capacity) cur r0
            (sec0.rows.drop (cur.rowIdx + 1)) st1 with
        | overflow pg nx =>
          rw [hbr] at h
          injection h with h1 h2
          subst h1
          exact (buildRows_fid mRow (allMarginBorderHeight + capacity) cur sections
            (sec0.rows.drop (cur.rowIdx + 1)) r0 st1 hfid1).1 pg nx hbr
        | exhausted st2 =>
          rw [hbr] at h
          have hfid2 : SecsFid sections st2.pageSections :=
            (buildRows_fid mRow (allMarginBorderHeight + capacity) cur sections
              (sec0.rows.drop (cur.rowIdx + 1)) r0 st1 hfid1).2 st2 hbr
          have hidx2 : st2.curIdx = st1.curIdx :=
            buildRows_curIdx mRow (allMarginBorderHeight + capacity) cur
              (sec0.rows.drop (cur.rowIdx + 1)) r0 st1 st2 hbr
          exact buildSecs_fid mRow mTitle (allMarginBorderHeight + capacity) cur
            sections (sections.drop (cur.secIdx + 1)) st2 (by rw [hidx2, hidx])
            hfid2 page onext h
      · obtain ⟨ch, hpt⟩ := hpt
        simp only [hpt] at h
        injection h with h1 h2
        subst h1
        exact SecsFid_removeLast cur.rowIdx hfid0

/-- Clone fidelity of every page of a finished orchestrator run. -/
theorem paginateAux_fid (mRow : α → Nat) (mTitle : String → Nat)
    (sections : List (Sec α)) (capacity : Nat) :
    ∀ (fuel : Nat) (cur : Cursor) (pages : List (Page α)),
    paginateAux mRow mTitle sections capacity fuel cur = .ok pages →
    ∀ p ∈ pages, SecsFid sections p.sections := by
  intro fuel
  induction fuel with
  | zero =>
    intro cur pages h
    simp [paginateAux] at h
  | succ n ih =>
    intro cur pages h
    rw [paginateAux] at h
    cases hb : buildPage mRow mTitle sections cur capacity with
    | crash =>
      rw [hb] at h
      simp at h
    | done page onext =>
      cases onext with
      | none =>
        rw [hb] at h
        have hpages : pages = [page] := by simpa using h.symm
        rw [hpages]
        intro p hp
        have hpp : p = page := by simpa using hp
        rw [hpp]
        exact buildPage_fid mRow mTitle sections cur capacity page none hb
      | some nxt =>
        simp only [hb] at h
        cases hrec : paginateAux mRow mTitle sections capacity n nxt with
        | ok ps =>
          rw [hrec] at h
          have hpages : pages = page :: ps := by simpa using h.symm
          rw [hpages]
          intro p hp
          rcases List.mem_cons.mp hp with hpp | hpp
          · rw [hpp]
            exact buildPage_fid mRow mTitle sections cur capacity page (some nxt) hb
          · exact ih nxt ps hrec p hpp
        | crashed ps =>
          rw [hrec] at h
          simp at h
        | outOfFuel ps =>
          rw [hrec] at h
          simp at h

/-! ### Claim C4 (amended): titles travel with every page-section clone -/

/-- C4 (amended): every page-section on every page of a finished run is a
faithful clone of the source section its `srcIndex` points at — it carries
that section's exact title text and title-rendering flag.  Hence a titled
section's `SectionTitle` unit is rendered (and its height counted by
`titleCreatedHandler`) on every page that holds one of its page-sections:
when a section splits across pages its title appears on each of those
pages, not only on the page holding its first row. -/
theorem c4_title_travels_with_every_clone (mRow : α → Nat)
    (mTitle : String → Nat) (sections : List (Sec α)) (capacity fuel : Nat)
    (pages : List (Page α)) (p : Page α) (ps : PageSec α)
    (hrun : paginate mRow mTitle sections capacity fuel = .ok pages)
    (hp : p ∈ pages) (hs : ps ∈ p.sections) :
    ∃ sec, sections.get? ps.srcIndex = some sec ∧
      ps.sectionTitle = sec.sectionTitle ∧ ps.hasTitle = sec.hasTitle :=
  paginateAux_fid mRow mTitle sections capacity fuel ⟨0, 0⟩ pages hrun p hp ps hs

/-- Witness for the amended C4 at the scenario input: the Experience
page-section on page 2 carries the Experience title and renders it. -/
theorem c4_title_travels_with_every_clone_witness :
    paginate mRowC6 mTitleC6 c6doc 100 10 = .ok [c6page1, c6page2, c6page3] ∧
      ∃ sec, c6doc.get? 1 = some sec ∧
        "Experience" = sec.sectionTitle ∧ true = sec.hasTitle :=
  ⟨paginate_c6_run,
    c4_title_travels_with_every_clone mRowC6 mTitleC6 c6doc 100 10
      [c6page1, c6page2, c6page3] c6page2 ⟨1, "Experience", true, [2]⟩
      paginate_c6_run (by decide) (by decide)⟩

end CvPagination
